import Mathlib

/-!
# Slang: verification of the macro-expansion engine against its specification

Shallow embedding of the Slang source (tokenizer, key-pair edge keys,
hash trie, macro expander) together with theorems settling the spec claims.

Strings are modelled as `List Char`; byte offsets used by the Rust code's
`char_indices`-based scanning are recomputed from `Char.utf8Size`, and the
panicking slice operations `&s[..n]` / `&s[n..]` are modelled by `byteSplit?`,
which returns `none` exactly when `n` is not a character boundary.
-/

namespace Slang

/-! ## Tokenizer (src/tokenizer.rs) -/

/-- Total number of UTF-8 bytes of a character list, as Rust indexes `str`. -/
def utf8Len (s : List Char) : Nat :=
  match s with
  | [] => 0
  | c :: rest => c.utf8Size + utf8Len rest

/-- Model of the pair of slices `(&s[..n], &s[n..])`: splits at byte offset
`n` when `n` is a character boundary, `none` models the Rust panic. -/
def byteSplit? : List Char → Nat → Option (List Char × List Char)
  | s, 0 => some ([], s)
  | [], _ + 1 => none
  | c :: cs, n + 1 =>
    if c.utf8Size ≤ n + 1 then
      match byteSplit? cs (n + 1 - c.utf8Size) with
      | some (a, b) => some (c :: a, b)
      | none => none
    else none

/-- The scanning loop of `read_value`: starting at byte offset `ofs`
(the offset of the first character of `rest` within the input), return the
byte offset of the first character satisfying `stops`; if the input is
exhausted, the Rust code leaves `value_end` at `0`. -/
def findStop (stops : Char → Bool) : Nat → List Char → Nat
  | _, [] => 0
  | ofs, c :: rest => if stops c then ofs else findStop stops (ofs + c.utf8Size) rest

/-- The `value_end` byte offset computed by `Tokenizer::read_value`. -/
def readValueEnd (singles seps : List Char) : List Char → Nat
  | [] => 0
  | c :: rest =>
    if c ∈ singles then 1
    else if c ∈ seps then 0
    else findStop (fun d => decide (d ∈ seps) || decide (d ∈ singles)) c.utf8Size rest

/-- `Tokenizer::read_value`: `(contents, remaining)`, `none` models a panic
from slicing off a character boundary. -/
def readValue (singles seps : List Char) (input : List Char) :
    Option (List Char × List Char) :=
  byteSplit? input (readValueEnd singles seps input)

/-- The scanning loop of `read_suffix`: byte offset of the first
non-separator character, or `none` when every character is a separator. -/
def readSuffixEnd (seps : List Char) : Nat → List Char → Option Nat
  | _, [] => none
  | ofs, c :: rest => if c ∈ seps then readSuffixEnd seps (ofs + c.utf8Size) rest else some ofs

/-- `Tokenizer::read_suffix`: when some character is not a separator, split
there; otherwise the whole input is the suffix and the remainder is empty. -/
def readSuffix (seps : List Char) (input : List Char) :
    Option (List Char × List Char) :=
  match readSuffixEnd seps 0 input with
  | some n => byteSplit? input n
  | none => some (input, [])

/-- A token: significant text plus its trailing separator run, both slices
of the original input (src/tokenizer.rs `Token`). -/
structure Token where
  value : List Char
  suffix : List Char
deriving DecidableEq

/-- The `Tokenizer::tokenize` loop, fuel-indexed: read a value, read a
suffix, stop when both are empty, otherwise emit the token and continue on
the rest. `none` is fuel exhaustion or a slicing panic. -/
def tokenizeGo (singles seps : List Char) : Nat → List Char → Option (List Token)
  | 0, _ => none
  | n + 1, start =>
    match readValue singles seps start with
    | none => none
    | some (value, postVal) =>
      match readSuffix seps postVal with
      | none => none
      | some (sfx, postSuf) =>
        if value.isEmpty && sfx.isEmpty then some []
        else
          match tokenizeGo singles seps n postSuf with
          | some ts => some (⟨value, sfx⟩ :: ts)
          | none => none

/-- `Tokenizer::tokenize`, with fuel `utf8Len input + 1`, which suffices
because every emitted token consumes at least one byte. -/
def tokenize (singles seps : List Char) (input : List Char) : Option (List Token) :=
  tokenizeGo singles seps (utf8Len input + 1) input

/-- The singleton set of `Tokenizer::default()`. -/
def defaultSingletons : List Char := ['[', ']', '{', '}', '(', ')', ',', ':', '#']

/-- The separator set of `Tokenizer::default()`. -/
def defaultSeparators : List Char := [' ', '\n', '\r', '\t']

/-- `Tokenizer::default().tokenize(input)`. -/
def tokenizeDefault (input : List Char) : Option (List Token) :=
  tokenize defaultSingletons defaultSeparators input

/-- Concatenation of every token's value and suffix, in order: the
reconstruction used by the round-trip property. -/
def renderTokens (ts : List Token) : List Char :=
  match ts with
  | [] => []
  | t :: rest => t.value ++ t.suffix ++ renderTokens rest

/-! ## Expander stub (src/macro_def.rs, `Macros::expand_tokens`)

The source's `expand_tokens` declares `let mut remaining = input;`, then
loops `while !remaining.is_empty()`, and the loop body only reads
`input[0]` and matches on its value with four empty arms: nothing is ever
written to `out_stream` and `remaining` is never reassigned. The model
below mirrors that loop, fuel-indexed; `some out` is normal return `Ok(())`
with `out` the text written to the output stream (always empty), `none` is
fuel exhaustion. -/

def expandTokensLoop (input remaining : List Token) : Nat → Option (List Char)
  | 0 => none
  | n + 1 =>
    match remaining with
    | [] => some []
    | _ :: _ =>
      -- loop body: reads `input[0]`, matches on "{" / "[" / "(" / _ with
      -- empty arms, and changes no state at all
      expandTokensLoop input remaining n

/-- `Macros::expand_tokens` on a token slice, fuel-indexed. -/
def expandTokens (input : List Token) (fuel : Nat) : Option (List Char) :=
  expandTokensLoop input input fuel

/-! ## Edge keys (src/trie/key_pair.rs)

The trie's edge map is keyed by `Pair<u32, K>` (owned) but queried on the
read path through the `KeyPair` trait object with `HalfBorrowed<u32, K>`.
The trait exposes the projections `a()` and `b()`; the trait-object `Eq`
compares the projections pairwise, and the trait-object `Hash` feeds `a()`
then `b()` into the hasher state. -/

/-- Owned edge key `Pair(A, B)`. -/
structure Pair (A B : Type) where
  fst : A
  snd : B
deriving DecidableEq

/-- Borrowed edge key `HalfBorrowed(A, &B)`; the reference is modelled by
the value it points to. -/
structure HalfBorrowed (A B : Type) where
  fst : A
  snd : B
deriving DecidableEq

/-- `KeyPair::a` for `Pair`. -/
def Pair.ka {A B : Type} (p : Pair A B) : A := p.fst

/-- `KeyPair::b` for `Pair`. -/
def Pair.kb {A B : Type} (p : Pair A B) : B := p.snd

/-- `KeyPair::a` for `HalfBorrowed`. -/
def HalfBorrowed.ka {A B : Type} (h : HalfBorrowed A B) : A := h.fst

/-- `KeyPair::b` for `HalfBorrowed` (dereferences the borrow). -/
def HalfBorrowed.kb {A B : Type} (h : HalfBorrowed A B) : B := h.snd

/-- Trait-object equality between two owned keys: `a() == a() && b() == b()`. -/
def kpEqPP {A B : Type} [DecidableEq A] [DecidableEq B] (x y : Pair A B) : Bool :=
  decide (x.ka = y.ka) && decide (x.kb = y.kb)

/-- Trait-object equality between a stored owned key and a borrowed query. -/
def kpEqPH {A B : Type} [DecidableEq A] [DecidableEq B]
    (x : Pair A B) (y : HalfBorrowed A B) : Bool :=
  decide (x.ka = y.ka) && decide (x.kb = y.kb)

/-- Trait-object `Hash` of an owned key: feed `a()`, then `b()`, into the
hasher state (`stepA`/`stepB` model writing one `A`/`B` into a hasher). -/
def kpHashP {A B S : Type} (stepA : S → A → S) (stepB : S → B → S)
    (s : S) (p : Pair A B) : S :=
  stepB (stepA s p.ka) p.kb

/-- Trait-object `Hash` of a borrowed key. -/
def kpHashH {A B S : Type} (stepA : S → A → S) (stepB : S → B → S)
    (s : S) (h : HalfBorrowed A B) : S :=
  stepB (stepA s h.ka) h.kb

/-- The `#[derive(Hash)]` implementation on `Pair`, which is what hashes
the stored keys at insertion time: field `.0`, then field `.1`. -/
def pairDerivedHash {A B S : Type} (stepA : S → A → S) (stepB : S → B → S)
    (s : S) (p : Pair A B) : S :=
  stepB (stepA s p.fst) p.snd

/-! ## Hash trie (src/trie/hash.rs)

`HashMap<HashTrieEdge<K>, HashTrieNode<V>>` is modelled as an association
list with the key equality the Rust map uses: owned lookups (`get_mut`)
compare `Pair` keys, read-path lookups (`get` through the `Borrow` to the
`KeyPair` trait object) compare via the trait-object equality against a
`HalfBorrowed` query, and `insert` replaces the value of an equal key. -/

/-- A trie node: an internal branch carrying its node id, or a leaf
carrying a value. -/
inductive HashTrieNode (V : Type) where
  | Branch (id : Nat)
  | Leaf (value : V)
deriving DecidableEq

/-- The flat edge map from `(origin node id, key)` to nodes. -/
def HashTrieMap (K V : Type) := List (Pair Nat K × HashTrieNode V)

instance {K V : Type} [DecidableEq K] [DecidableEq V] : DecidableEq (HashTrieMap K V) :=
  inferInstanceAs (DecidableEq (List (Pair Nat K × HashTrieNode V)))

/-- `map.get_mut(owned_pair)` / owned-key lookup. -/
def mapGetO {K V : Type} [DecidableEq K] :
    HashTrieMap K V → Pair Nat K → Option (HashTrieNode V)
  | [], _ => none
  | (key, node) :: rest, q => if kpEqPP key q then some node else mapGetO rest q

/-- `map.get(borrowed as &KeyPair)` / borrowed-key lookup through the
trait-object equality. -/
def mapGetB {K V : Type} [DecidableEq K] :
    HashTrieMap K V → HalfBorrowed Nat K → Option (HashTrieNode V)
  | [], _ => none
  | (key, node) :: rest, q => if kpEqPH key q then some node else mapGetB rest q

/-- `map.insert(owned_pair, node)`: replace the value of an equal key,
keeping the original key, else append the binding. -/
def mapInsert {K V : Type} [DecidableEq K] :
    HashTrieMap K V → Pair Nat K → HashTrieNode V → HashTrieMap K V
  | [], key, n => [(key, n)]
  | (k', n') :: rest, key, n =>
    if kpEqPP k' key then (k', n) :: rest else (k', n') :: mapInsert rest key n

/-- `HashTrie<K, V>`: either the degenerate all-in-one `Trivial` form
(the empty path is mapped to a value) or the `Standard` arena form. -/
inductive HashTrie (K V : Type) where
  | Trivial (value : V)
  | Standard (map : HashTrieMap K V) (next_id : Nat)
deriving DecidableEq

/-- `HashTrie::new()`: the empty `Standard` trie; `next_id` is 1 because 0
is reserved for the root. -/
def HashTrie.new {K V : Type} : HashTrie K V := .Standard [] 1

/-- `HashTrieView::descend`: from the root (edge `none`) of a `Standard`
trie, pair node 0 with the key; from an inner position, follow the stored
edge when it is a `Branch`; anything else (including any view of a
`Trivial` trie) fails. -/
def HashTrie.descendRead {K V : Type} [DecidableEq K] (t : HashTrie K V)
    (edge : Option (HalfBorrowed Nat K)) (key : K) : Option (HalfBorrowed Nat K) :=
  match t, edge with
  | .Standard _ _, none => some ⟨0, key⟩
  | .Standard map _, some e =>
    match mapGetB map e with
    | some (.Branch id) => some ⟨id, key⟩
    | _ => none
  | _, _ => none

/-- `HashTrieView::value`: the root of a `Trivial` trie holds its value;
an inner position holds a value exactly when its edge maps to a `Leaf`. -/
def HashTrie.viewValue {K V : Type} [DecidableEq K] (t : HashTrie K V)
    (edge : Option (HalfBorrowed Nat K)) : Option V :=
  match t, edge with
  | .Trivial v, none => some v
  | .Standard map _, some e =>
    match mapGetB map e with
    | some (.Leaf v) => some v
    | _ => none
  | _, _ => none

/-- The `while let` loop of `HashTrie::get_view` over the keys after the
first. -/
def HashTrie.getViewLoop {K V : Type} [DecidableEq K] (t : HashTrie K V)
    (e : HalfBorrowed Nat K) : List K → Option (HalfBorrowed Nat K)
  | [] => some e
  | k :: rest =>
    match t.descendRead (some e) k with
    | some e' => t.getViewLoop e' rest
    | none => none

/-- `HashTrie::get_view`: note the source returns `None` when the path
iterator yields no first key. -/
def HashTrie.getView {K V : Type} [DecidableEq K] (t : HashTrie K V)
    (path : List K) : Option (HalfBorrowed Nat K) :=
  match path with
  | [] => none
  | k :: rest =>
    match t.descendRead none k with
    | some e => t.getViewLoop e rest
    | none => none

/-- `HashTrie::get`: the value of the view reached by `get_view`. -/
def HashTrie.get {K V : Type} [DecidableEq K] (t : HashTrie K V)
    (path : List K) : Option V :=
  match t.getView path with
  | some e => t.viewValue (some e)
  | none => none

/-- `HashTrieViewMut::descend_or_add`. From the root the node id is 0 and
nothing is looked up (whatever the trie is). From an inner position of a
`Standard` trie, follow a `Branch`; when the stored edge is absent *or a
`Leaf`*, store a `Branch` with a fresh id over it; on a `Trivial` trie
fail. Returns the updated trie and the new current edge. -/
def HashTrie.descendOrAdd {K V : Type} [DecidableEq K] (t : HashTrie K V)
    (edge : Option (Pair Nat K)) (key : K) : Option (HashTrie K V × Pair Nat K) :=
  match edge with
  | none => some (t, ⟨0, key⟩)
  | some e =>
    match t with
    | .Trivial _ => none
    | .Standard map nid =>
      match mapGetB map ⟨e.fst, e.snd⟩ with
      | some (.Branch id) => some (.Standard map nid, ⟨id, key⟩)
      | _ =>
        some (.Standard (mapInsert map ⟨e.fst, e.snd⟩ (.Branch nid)) (nid + 1),
          ⟨nid, key⟩)

/-- `HashTrieViewMut::set_value`. At the root of a `Standard` trie the
trie becomes `Trivial` exactly when the map is empty; at an inner position
an absent edge becomes a `Leaf` and an existing `Leaf` is overwritten
(both return true), while a `Branch` refuses; every view of a `Trivial`
trie refuses. -/
def HashTrie.setValue {K V : Type} [DecidableEq K] (t : HashTrie K V)
    (edge : Option (Pair Nat K)) (v : V) : Bool × HashTrie K V :=
  match t, edge with
  | .Standard map nid, none =>
    if map.isEmpty then (true, .Trivial v) else (false, .Standard map nid)
  | .Standard map nid, some e =>
    match mapGetO map e with
    | none => (true, .Standard (mapInsert map e (.Leaf v)) nid)
    | some (.Leaf _) => (true, .Standard (mapInsert map e (.Leaf v)) nid)
    | some (.Branch _) => (false, .Standard map nid)
  | t, _ => (false, t)

/-- The `for key in path` loop of `HashTrie::insert` followed by the final
`set_value`. -/
def HashTrie.insertLoop {K V : Type} [DecidableEq K] (t : HashTrie K V)
    (edge : Option (Pair Nat K)) (v : V) : List K → Bool × HashTrie K V
  | [] => t.setValue edge v
  | k :: rest =>
    match t.descendOrAdd edge k with
    | some (t', e') => t'.insertLoop (some e') v rest
    | none => (false, t)

/-- `HashTrie::insert`: walk (creating as needed) and set the value;
returns the success flag together with the resulting trie. -/
def HashTrie.insert {K V : Type} [DecidableEq K] (t : HashTrie K V)
    (path : List K) (v : V) : Bool × HashTrie K V :=
  t.insertLoop none v path

/-- A trie built from `HashTrie::new()` by a sequence of inserts. -/
def buildTrie {K V : Type} [DecidableEq K] (ops : List (List K × V)) : HashTrie K V :=
  ops.foldl (fun t op => (t.insert op.1 op.2).2) HashTrie.new

/-- `isStartOf p q` is true when `p` is an initial segment of `q`. -/
def isStartOf {K : Type} [DecidableEq K] : List K → List K → Bool
  | [], _ => true
  | _ :: _, [] => false
  | a :: xs, b :: ys => decide (a = b) && isStartOf xs ys

/-! ## Reasoning devices over the edge map -/

/-- Lookup of the edge `(a, k)` (owned form). -/
def mGet {K V : Type} [DecidableEq K] (m : HashTrieMap K V) (a : Nat) (k : K) :
    Option (HashTrieNode V) :=
  mapGetO m ⟨a, k⟩

/-- Follow a key sequence through `Branch` edges starting at node `a`;
`some n` is the node reached, `none` means the walk left the branch
structure. -/
def walkNode {K V : Type} [DecidableEq K] (m : HashTrieMap K V) :
    Nat → List K → Option Nat
  | a, [] => some a
  | a, k :: rest =>
    match mGet m a k with
    | some (.Branch j) => walkNode m j rest
    | _ => none

/-- Follow a key sequence edge-wise: from current edge `(a, k)`, consume
the next key by reading the `Branch` stored at `(a, k)`; returns the final
edge. This is the loop structure shared by `get_view` and `insert`. -/
def walkE {K V : Type} [DecidableEq K] (m : HashTrieMap K V) :
    Nat × K → List K → Option (Nat × K)
  | e, [] => some e
  | (a, k), k2 :: rest =>
    match mGet m a k with
    | some (.Branch j) => walkE m (j, k2) rest
    | _ => none

/-- Well-formedness of a `Standard` trie's arena, maintained by every
insert: ids are below `next_id`, every branch edge points strictly upward
(origin id < target id), and branch targets are hit by a unique edge. -/
structure WFMap {K V : Type} [DecidableEq K] (m : HashTrieMap K V) (nid : Nat) : Prop where
  one_le : 1 ≤ nid
  orig_lt : ∀ a k n, mGet m a k = some n → a < nid
  branch_lt : ∀ a k j, mGet m a k = some (.Branch j) → a < j ∧ j < nid
  branch_inj : ∀ a k a' k' j, mGet m a k = some (.Branch j) →
    mGet m a' k' = some (.Branch j) → a = a' ∧ k = k'

/-- Well-formedness of a trie. -/
def WFT {K V : Type} [DecidableEq K] : HashTrie K V → Prop
  | .Trivial _ => True
  | .Standard m nid => WFMap m nid

/-! ## Lemmas: edge-key equality and the edge map -/

theorem kpEqPP_iff {A B : Type} [DecidableEq A] [DecidableEq B] (x y : Pair A B) :
    kpEqPP x y = true ↔ x = y := by
  cases x; cases y
  simp [kpEqPP, Pair.ka, Pair.kb, Pair.mk.injEq]

theorem kpEqPH_iff {A B : Type} [DecidableEq A] [DecidableEq B]
    (x : Pair A B) (y : HalfBorrowed A B) :
    kpEqPH x y = true ↔ (x.fst = y.fst ∧ x.snd = y.snd) := by
  cases x; cases y
  simp [kpEqPH, Pair.ka, Pair.kb, HalfBorrowed.ka, HalfBorrowed.kb]

/-- Borrowed-key lookup agrees with owned-key lookup on the same
`(node id, key)` pair. -/
theorem mapGetB_eq {K V : Type} [DecidableEq K] (m : HashTrieMap K V) (a : Nat) (k : K) :
    mapGetB m ⟨a, k⟩ = mapGetO m ⟨a, k⟩ := by
  induction m with
  | nil => rfl
  | cons hd tl ih =>
    obtain ⟨key, node⟩ := hd
    simp only [mapGetB, mapGetO]
    have : kpEqPH key (⟨a, k⟩ : HalfBorrowed Nat K) =
        kpEqPP key (⟨a, k⟩ : Pair Nat K) := rfl
    rw [this, ih]

theorem mGet_insert {K V : Type} [DecidableEq K] (m : HashTrieMap K V)
    (a : Nat) (k : K) (n : HashTrieNode V) (a' : Nat) (k' : K) :
    mGet (mapInsert m ⟨a, k⟩ n) a' k' =
      if a = a' ∧ k = k' then some n else mGet m a' k' := by
  induction m with
  | nil =>
    by_cases h : a = a' ∧ k = k'
    · obtain ⟨rfl, rfl⟩ := h
      simp [mGet, mapInsert, mapGetO, kpEqPP_iff]
    · simp [mGet, mapInsert, mapGetO, kpEqPP_iff, Pair.mk.injEq, h]
  | cons hd tl ih =>
    obtain ⟨key, node⟩ := hd
    simp only [mGet] at ih
    by_cases hk : key = (⟨a, k⟩ : Pair Nat K)
    · subst hk
      by_cases h : a = a' ∧ k = k'
      · obtain ⟨rfl, rfl⟩ := h
        simp [mGet, mapInsert, mapGetO, kpEqPP_iff]
      · simp [mGet, mapInsert, mapGetO, kpEqPP_iff, Pair.mk.injEq, h]
    · by_cases hq : key = (⟨a', k'⟩ : Pair Nat K)
      · have h : ¬(a = a' ∧ k = k') := by
          rintro ⟨rfl, rfl⟩
          exact hk hq
        subst hq
        simp [mGet, mapInsert, mapGetO, kpEqPP_iff, h, hk]
      · simp [mGet, mapInsert, mapGetO, kpEqPP_iff, hk, hq, ih]

/-- The value just written under an owned key is found by the
corresponding borrowed-key lookup. -/
theorem mapGetB_insert_self {K V : Type} [DecidableEq K] (m : HashTrieMap K V)
    (a : Nat) (k : K) (n : HashTrieNode V) :
    mapGetB (mapInsert m ⟨a, k⟩ n) ⟨a, k⟩ = some n := by
  rw [mapGetB_eq]
  have := mGet_insert m a k n a k
  simpa [mGet] using this

/-! ## Lemmas: tokenizer -/

theorem utf8Len_append (a b : List Char) :
    utf8Len (a ++ b) = utf8Len a + utf8Len b := by
  induction a with
  | nil => simp [utf8Len]
  | cons c rest ih => simp [utf8Len, ih]; omega

theorem utf8Len_pos {s : List Char} (h : s ≠ []) : 0 < utf8Len s := by
  cases s with
  | nil => exact absurd rfl h
  | cons c rest =>
    have := Char.utf8Size_pos c
    simp only [utf8Len]
    omega

/-- Splitting at the byte length of a prefix is always on a character
boundary and recovers that prefix. -/
theorem byteSplit?_boundary (a b : List Char) :
    byteSplit? (a ++ b) (utf8Len a) = some (a, b) := by
  induction a with
  | nil => simp [utf8Len, byteSplit?]
  | cons c rest ih =>
    have hpos := Char.utf8Size_pos c
    obtain ⟨m, hm⟩ : ∃ m, utf8Len (c :: rest) = m + 1 := by
      have : 0 < utf8Len (c :: rest) := utf8Len_pos (by simp)
      exact ⟨utf8Len (c :: rest) - 1, by omega⟩
    have hlen : utf8Len (c :: rest) = c.utf8Size + utf8Len rest := rfl
    rw [hm]
    show byteSplit? (c :: (rest ++ b)) (m + 1) = some (c :: rest, b)
    rw [byteSplit?]
    rw [if_pos (by omega : c.utf8Size ≤ m + 1)]
    have hsub : m + 1 - c.utf8Size = utf8Len rest := by omega
    rw [hsub, ih]

theorem byteSplit?_eq_append {s : List Char} {n : Nat} {a b : List Char}
    (h : byteSplit? s n = some (a, b)) : s = a ++ b := by
  induction s generalizing n a b with
  | nil =>
    cases n with
    | zero =>
      simp only [byteSplit?, Option.some.injEq, Prod.mk.injEq] at h
      simp [← h.1, ← h.2]
    | succ m => simp [byteSplit?] at h
  | cons c cs ih =>
    cases n with
    | zero =>
      simp only [byteSplit?, Option.some.injEq, Prod.mk.injEq] at h
      simp [← h.1, ← h.2]
    | succ m =>
      rw [byteSplit?] at h
      by_cases hle : c.utf8Size ≤ m + 1
      · rw [if_pos hle] at h
        cases hsp : byteSplit? cs (m + 1 - c.utf8Size) with
        | none => rw [hsp] at h; exact absurd h (by simp)
        | some p =>
          obtain ⟨a', b'⟩ := p
          rw [hsp] at h
          simp only [Option.some.injEq, Prod.mk.injEq] at h
          have := ih hsp
          rw [← h.1, ← h.2, this]
          rfl
      · rw [if_neg hle] at h
        exact absurd h (by simp)

theorem findStop_spec (stops : Char → Bool) (rest : List Char) :
    ∀ acc : List Char,
      findStop stops (utf8Len acc) rest = 0 ∨
      ∃ a b, rest = a ++ b ∧
        findStop stops (utf8Len acc) rest = utf8Len (acc ++ a) := by
  induction rest with
  | nil => intro acc; left; rfl
  | cons d rest' ih =>
    intro acc
    by_cases hd : stops d
    · right
      exact ⟨[], d :: rest', by simp, by simp [findStop, hd]⟩
    · have heq : utf8Len acc + d.utf8Size = utf8Len (acc ++ [d]) := by
        rw [utf8Len_append]; simp [utf8Len]
      rcases ih (acc ++ [d]) with h0 | ⟨a, b, hab, hres⟩
      · left
        simp only [findStop, hd, Bool.false_eq_true, if_false]
        rw [heq]
        exact h0
      · right
        refine ⟨d :: a, b, by simp [hab], ?_⟩
        simp only [findStop, hd, Bool.false_eq_true, if_false]
        rw [heq, hres]
        congr 1
        simp

/-- `read_value` never panics, and splits the input, provided every
singleton character is one byte (true of the default set). -/
theorem readValue_split (singles seps : List Char)
    (hs : ∀ c ∈ singles, c.utf8Size = 1) (input : List Char) :
    ∃ a b, readValue singles seps input = some (a, b) ∧ input = a ++ b := by
  unfold readValue
  cases input with
  | nil => exact ⟨[], [], by simp [readValueEnd, byteSplit?], rfl⟩
  | cons c rest =>
    simp only [readValueEnd]
    by_cases h1 : c ∈ singles
    · have hsz : c.utf8Size = 1 := hs c h1
      refine ⟨[c], rest, ?_, rfl⟩
      rw [if_pos h1]
      show byteSplit? (c :: rest) (0 + 1) = some ([c], rest)
      rw [byteSplit?, if_pos (by omega : c.utf8Size ≤ 0 + 1), hsz]
      simp [byteSplit?]
    · by_cases h2 : c ∈ seps
      · exact ⟨[], c :: rest, by rw [if_neg h1, if_pos h2]; rfl, rfl⟩
      · rw [if_neg h1, if_neg h2]
        have hc : c.utf8Size = utf8Len [c] := by simp [utf8Len]
        rw [hc]
        rcases findStop_spec (fun d => decide (d ∈ seps) || decide (d ∈ singles)) rest [c]
          with h0 | ⟨a, b, hab, hres⟩
        · rw [h0]
          exact ⟨[], c :: rest, rfl, rfl⟩
        · rw [hres]
          refine ⟨c :: a, b, ?_, by simp [hab]⟩
          rw [show [c] ++ a = c :: a from rfl,
            show c :: rest = (c :: a) ++ b by simp [hab]]
          exact byteSplit?_boundary (c :: a) b

theorem readSuffixEnd_spec (seps : List Char) (rest : List Char) :
    ∀ acc : List Char,
      readSuffixEnd seps (utf8Len acc) rest = none ∨
      ∃ a b, rest = a ++ b ∧
        readSuffixEnd seps (utf8Len acc) rest = some (utf8Len (acc ++ a)) := by
  induction rest with
  | nil => intro acc; left; rfl
  | cons d rest' ih =>
    intro acc
    by_cases hd : d ∈ seps
    · have heq : utf8Len acc + d.utf8Size = utf8Len (acc ++ [d]) := by
        rw [utf8Len_append]; simp [utf8Len]
      rcases ih (acc ++ [d]) with h0 | ⟨a, b, hab, hres⟩
      · left
        simp only [readSuffixEnd, if_pos hd]
        rw [heq]
        exact h0
      · right
        refine ⟨d :: a, b, by simp [hab], ?_⟩
        simp only [readSuffixEnd, if_pos hd]
        rw [heq, hres]
        congr 2
        simp
    · right
      exact ⟨[], d :: rest', by simp, by simp [readSuffixEnd, hd]⟩

/-- `read_suffix` never panics and splits its input. -/
theorem readSuffix_split (seps : List Char) (input : List Char) :
    ∃ a b, readSuffix seps input = some (a, b) ∧ input = a ++ b := by
  unfold readSuffix
  rcases readSuffixEnd_spec seps input [] with h0 | ⟨a, b, hab, hres⟩
  · rw [show (0 : Nat) = utf8Len [] from rfl, h0]
    exact ⟨input, [], rfl, by simp⟩
  · rw [show (0 : Nat) = utf8Len [] from rfl, hres]
    refine ⟨a, b, ?_, hab⟩
    rw [show ([] : List Char) ++ a = a from rfl,
      show input = a ++ b from hab]
    exact byteSplit?_boundary a b

/-- With enough fuel (any bound above the input's byte length) the
tokenize loop returns normally. -/
theorem tokenizeGo_some (singles seps : List Char)
    (hs : ∀ c ∈ singles, c.utf8Size = 1) :
    ∀ (fuel : Nat) (input : List Char), utf8Len input < fuel →
      ∃ ts, tokenizeGo singles seps fuel input = some ts := by
  intro fuel
  induction fuel with
  | zero => intro input h; omega
  | succ n ih =>
    intro input hlt
    obtain ⟨value, postVal, hrv, hsplit1⟩ := readValue_split singles seps hs input
    obtain ⟨sfx, postSuf, hrs, hsplit2⟩ := readSuffix_split seps postVal
    rw [tokenizeGo, hrv]
    dsimp only
    rw [hrs]
    dsimp only
    by_cases hemp : (value.isEmpty && sfx.isEmpty) = true
    · rw [if_pos hemp]
      exact ⟨[], rfl⟩
    · rw [if_neg hemp]
      have hne : value ≠ [] ∨ sfx ≠ [] := by
        by_cases hv : value = []
        · right
          intro hx
          exact hemp (by simp [hv, hx])
        · left; exact hv
      have hlen : utf8Len postSuf < n := by
        have h1 : utf8Len input = utf8Len value + (utf8Len sfx + utf8Len postSuf) := by
          rw [hsplit1, hsplit2, utf8Len_append, utf8Len_append]
        have h2 : 0 < utf8Len value + utf8Len sfx := by
          rcases hne with h | h
          · have := utf8Len_pos h; omega
          · have := utf8Len_pos h; omega
        omega
      obtain ⟨ts, hts⟩ := ih postSuf hlen
      rw [hts]
      exact ⟨_, rfl⟩

/-- The `expand_tokens` loop with a non-empty `remaining` recurses with
identical state, so it exhausts any fuel. -/
theorem expandTokensLoop_cons (input : List Token) (t : Token) (ts : List Token) :
    ∀ fuel, expandTokensLoop input (t :: ts) fuel = none := by
  intro fuel
  induction fuel with
  | zero => rfl
  | succ n ih => simpa [expandTokensLoop] using ih

/-! ## Claim theorems: tokenizer and expander -/

/-- C9: tokenization with the default singleton and separator sets never
panics: for every input (multi-byte characters included) every slice taken
by `read_value` and `read_suffix` is on a character boundary and
`tokenize` returns normally. -/
theorem tokenize_default_no_panic (input : List Char) :
    (tokenizeDefault input).isSome = true := by
  obtain ⟨ts, hts⟩ := tokenizeGo_some defaultSingletons defaultSeparators
    (by decide) (utf8Len input + 1) input (by omega)
  unfold tokenizeDefault tokenize
  rw [hts]
  rfl

/-- C1: the tokenizer round-trip fails. On input `"abc"` the `read_value`
scan reaches end of input without ever setting `value_end`, so the default
tokenizer returns *zero* tokens and the concatenation of every token's
value and suffix is empty, not the original input. -/
theorem tokenize_roundtrip_fails_on_abc :
    tokenizeDefault ['a', 'b', 'c'] = some [] ∧
    renderTokens [] ≠ ['a', 'b', 'c'] := by
  constructor
  · decide
  · decide

/-- C4: `Macros::expand_tokens` does not terminate on any non-empty token
slice: the `while !remaining.is_empty()` loop never modifies `remaining`,
so on the two-token input below the loop runs forever — the fuel-indexed
model returns `none` for every fuel bound. -/
theorem expand_tokens_nonterminating :
    ∀ fuel : Nat, expandTokens [⟨['a'], [' ']⟩, ⟨['b'], []⟩] fuel = none := by
  intro fuel
  exact expandTokensLoop_cons _ _ _ fuel

/-- C5: `Macros::expand_tokens` never writes anything to the output
stream and diverges on every non-empty well-formed token input, so
unmatched tokens are not passed through: no fuel bound makes it return,
let alone return the pass-through text. -/
theorem expand_tokens_no_passthrough (input : List Token) (fuel : Nat)
    (h : input ≠ []) : expandTokens input fuel = none := by
  cases input with
  | nil => exact absurd rfl h
  | cons t ts => exact expandTokensLoop_cons _ _ _ fuel

/-- Witness for C5's theorem at the concrete input token `"a "`. -/
theorem expand_tokens_no_passthrough_witness :
    ([⟨['a'], [' ']⟩] : List Token) ≠ [] ∧
    expandTokens [⟨['a'], [' ']⟩] 9 = none := by
  constructor
  · decide
  · exact expand_tokens_no_passthrough [⟨['a'], [' ']⟩] 9 (by decide)

/-! ## Claim theorem: edge keys -/

/-- C8: for every node id `a` and key `k`, the owned key `Pair(a, k)` and
the borrowed key `HalfBorrowed(a, &k)` are equal under the `KeyPair`
trait-object equality; the trait-object hash of both forms and the derived
hash of the stored `Pair` all coincide; consequently a borrowed read-path
lookup agrees with the owned lookup on every map and finds an entry just
stored under the owned key. -/
theorem key_pair_borrowed_owned_agree {K V : Type} [DecidableEq K] {S : Type}
    (stepA : S → Nat → S) (stepB : S → K → S) (s : S) (a : Nat) (k : K)
    (m : HashTrieMap K V) (n : HashTrieNode V) :
    kpEqPH (Pair.mk a k) (HalfBorrowed.mk a k) = true ∧
    kpHashP stepA stepB s (Pair.mk a k) = kpHashH stepA stepB s (HalfBorrowed.mk a k) ∧
    pairDerivedHash stepA stepB s (Pair.mk a k) =
      kpHashH stepA stepB s (HalfBorrowed.mk a k) ∧
    mapGetB m ⟨a, k⟩ = mapGetO m ⟨a, k⟩ ∧
    mapGetB (mapInsert m ⟨a, k⟩ n) ⟨a, k⟩ = some n := by
  refine ⟨?_, rfl, rfl, mapGetB_eq m a k, mapGetB_insert_self m a k n⟩
  simp [kpEqPH, Pair.ka, Pair.kb, HalfBorrowed.ka, HalfBorrowed.kb]

/-! ## Lemmas: characterizing `get` by edge walks -/

theorem getViewLoop_walkE {K V : Type} [DecidableEq K] (m : HashTrieMap K V) (nid : Nat) :
    ∀ (rest : List K) (a : Nat) (k : K),
      (HashTrie.Standard m nid).getViewLoop ⟨a, k⟩ rest =
        (walkE m (a, k) rest).map (fun e => (⟨e.1, e.2⟩ : HalfBorrowed Nat K)) := by
  intro rest
  induction rest with
  | nil => intro a k; rfl
  | cons k2 rest' ih =>
    intro a k
    rw [HashTrie.getViewLoop, walkE]
    show (match (HashTrie.Standard m nid).descendRead (some ⟨a, k⟩) k2 with
      | some e' => (HashTrie.Standard m nid).getViewLoop e' rest'
      | none => none) = _
    rw [HashTrie.descendRead]
    rw [show mapGetB m ⟨a, k⟩ = mGet m a k from mapGetB_eq m a k]
    cases hget : mGet m a k with
    | none => rfl
    | some node =>
      cases node with
      | Branch j => exact ih j k2
      | Leaf u => rfl

theorem get_cons_eq {K V : Type} [DecidableEq K] (m : HashTrieMap K V) (nid : Nat)
    (q1 : K) (qr : List K) :
    (HashTrie.Standard m nid).get (q1 :: qr) =
      match walkE m (0, q1) qr with
      | some e =>
        (match mGet m e.1 e.2 with
          | some (.Leaf v) => some v
          | _ => none)
      | none => none := by
  rw [HashTrie.get, HashTrie.getView]
  dsimp only [HashTrie.descendRead]
  rw [getViewLoop_walkE]
  cases hw : walkE m (0, q1) qr with
  | none => rfl
  | some e =>
    dsimp only [Option.map, HashTrie.viewValue]
    rw [show mapGetB m ⟨e.1, e.2⟩ = mGet m e.1 e.2 from mapGetB_eq m e.1 e.2]

theorem get_cons_some_iff {K V : Type} [DecidableEq K] (m : HashTrieMap K V) (nid : Nat)
    (q1 : K) (qr : List K) (w : V) :
    (HashTrie.Standard m nid).get (q1 :: qr) = some w ↔
      ∃ e : Nat × K, walkE m (0, q1) qr = some e ∧
        mGet m e.1 e.2 = some (.Leaf w) := by
  rw [get_cons_eq]
  constructor
  · intro h
    cases hw : walkE m (0, q1) qr with
    | none => rw [hw] at h; exact absurd h (by simp)
    | some e =>
      rw [hw] at h
      dsimp only at h
      refine ⟨e, rfl, ?_⟩
      cases hget : mGet m e.1 e.2 with
      | none => rw [hget] at h; exact absurd h (by simp)
      | some node =>
        cases node with
        | Branch j => rw [hget] at h; exact absurd h (by simp)
        | Leaf v =>
          rw [hget] at h
          dsimp only at h
          simp only [Option.some.injEq] at h
          rw [h]
  · rintro ⟨e, hw, hget⟩
    rw [hw]
    dsimp only
    rw [hget]

theorem get_nil {K V : Type} [DecidableEq K] (t : HashTrie K V) :
    t.get [] = none := rfl

theorem get_trivial {K V : Type} [DecidableEq K] (v : V) (q : List K) :
    (HashTrie.Trivial v).get q = none := by
  cases q with
  | nil => rfl
  | cons k rest => rfl

/-! ## Lemmas: walks -/

theorem walkNode_append {K V : Type} [DecidableEq K] (m : HashTrieMap K V) :
    ∀ (xs ys : List K) (a : Nat),
      walkNode m a (xs ++ ys) =
        match walkNode m a xs with
        | some b => walkNode m b ys
        | none => none := by
  intro xs
  induction xs with
  | nil => intro ys a; rfl
  | cons k xs' ih =>
    intro ys a
    show walkNode m a (k :: (xs' ++ ys)) = _
    rw [walkNode, walkNode]
    cases hget : mGet m a k with
    | none => rfl
    | some node =>
      cases node with
      | Branch j => exact ih ys j
      | Leaf u => rfl

theorem walkE_decomp {K V : Type} [DecidableEq K] (m : HashTrieMap K V) :
    ∀ (qr : List K) (a : Nat) (q1 : K) (b : Nat) (kl : K),
      walkE m (a, q1) qr = some (b, kl) →
      ∃ init, q1 :: qr = init ++ [kl] ∧ walkNode m a init = some b := by
  intro qr
  induction qr with
  | nil =>
    intro a q1 b kl h
    rw [walkE] at h
    simp only [Option.some.injEq, Prod.mk.injEq] at h
    exact ⟨[], by simp [h.2], by rw [← h.1]; rfl⟩
  | cons q2 qr' ih =>
    intro a q1 b kl h
    rw [walkE] at h
    cases hget : mGet m a q1 with
    | none => rw [hget] at h; exact absurd h (by simp)
    | some node =>
      cases node with
      | Leaf u => rw [hget] at h; exact absurd h (by simp)
      | Branch j =>
        rw [hget] at h
        obtain ⟨init', heq, hwalk⟩ := ih j q2 b kl h
        refine ⟨q1 :: init', by rw [List.cons_append, heq], ?_⟩
        rw [walkNode, hget]
        exact hwalk

theorem walkE_mono {K V : Type} [DecidableEq K] {m m' : HashTrieMap K V}
    (hpres : ∀ a k j, mGet m a k = some (.Branch j) → mGet m' a k = some (.Branch j)) :
    ∀ (qs : List K) (a : Nat) (k : K) (e' : Nat × K),
      walkE m (a, k) qs = some e' → walkE m' (a, k) qs = some e' := by
  intro qs
  induction qs with
  | nil => intro a k e' h; exact h
  | cons k2 qs' ih =>
    intro a k e' h
    rw [walkE] at h ⊢
    cases hget : mGet m a k with
    | none => rw [hget] at h; exact absurd h (by simp)
    | some node =>
      cases node with
      | Leaf u => rw [hget] at h; exact absurd h (by simp)
      | Branch j =>
        rw [hget] at h
        rw [hpres a k j hget]
        exact ih j k2 e' h

theorem walkE_low {K V : Type} [DecidableEq K] {m m' : HashTrieMap K V} {nid : Nat}
    (hWF : WFMap m nid)
    (hag : ∀ a k j, a < nid → mGet m a k = some (.Branch j) → mGet m' a k = some (.Branch j)) :
    ∀ (qs : List K) (a : Nat) (k : K) (e' : Nat × K), a < nid →
      walkE m (a, k) qs = some e' → walkE m' (a, k) qs = some e' ∧ e'.1 < nid := by
  intro qs
  induction qs with
  | nil =>
    intro a k e' ha h
    rw [walkE] at h
    simp only [Option.some.injEq] at h
    subst h
    exact ⟨rfl, ha⟩
  | cons k2 qs' ih =>
    intro a k e' ha h
    rw [walkE] at h ⊢
    cases hget : mGet m a k with
    | none => rw [hget] at h; exact absurd h (by simp)
    | some node =>
      cases node with
      | Leaf u => rw [hget] at h; exact absurd h (by simp)
      | Branch j =>
        rw [hget] at h
        rw [hag a k j ha hget]
        exact ih j k2 e' (hWF.branch_lt a k j hget).2 h

/-- Decompose a successful walk over a concatenation with a final key. -/
theorem walkNode_concat_some {K V : Type} [DecidableEq K] {m : HashTrieMap K V}
    {a n : Nat} {xs : List K} {k : K}
    (h : walkNode m a (xs ++ [k]) = some n) :
    ∃ b, walkNode m a xs = some b ∧ mGet m b k = some (.Branch n) := by
  rw [walkNode_append] at h
  cases hw : walkNode m a xs with
  | none => rw [hw] at h; exact absurd h (by simp)
  | some b =>
    rw [hw] at h
    dsimp only at h
    rw [walkNode] at h
    cases hget : mGet m b k with
    | none => rw [hget] at h; exact absurd h (by simp)
    | some node =>
      cases node with
      | Leaf u => rw [hget] at h; exact absurd h (by simp)
      | Branch j =>
        rw [hget] at h
        dsimp only at h
        rw [walkNode] at h
        simp only [Option.some.injEq] at h
        subst h
        exact ⟨b, rfl, hget⟩

/-- Under well-formedness, a node is reached from the root by at most one
key path: the arena is a forest rooted at node 0. -/
theorem walkNode_inj {K V : Type} [DecidableEq K] {m : HashTrieMap K V} {nid : Nat}
    (hWF : WFMap m nid) :
    ∀ (n : Nat) (xs ys : List K),
      walkNode m 0 xs = some n → walkNode m 0 ys = some n → xs = ys := by
  intro n
  induction n using Nat.strong_induction_on with
  | _ n ihn =>
    intro xs ys hx hy
    rcases List.eq_nil_or_concat xs with hxe | ⟨xs', kx, hxc⟩
    · rcases List.eq_nil_or_concat ys with hye | ⟨ys', ky, hyc⟩
      · rw [hxe, hye]
      · subst hxe hyc
        rw [walkNode] at hx
        simp only [Option.some.injEq] at hx
        rw [List.concat_eq_append] at hy
        obtain ⟨b, _, hget⟩ := walkNode_concat_some hy
        have := (hWF.branch_lt b ky n hget).1
        omega
    · rcases List.eq_nil_or_concat ys with hye | ⟨ys', ky, hyc⟩
      · subst hye hxc
        rw [walkNode] at hy
        simp only [Option.some.injEq] at hy
        rw [List.concat_eq_append] at hx
        obtain ⟨b, _, hget⟩ := walkNode_concat_some hx
        have := (hWF.branch_lt b kx n hget).1
        omega
      · subst hxc hyc
        rw [List.concat_eq_append] at hx hy
        obtain ⟨bx, hwx, hgx⟩ := walkNode_concat_some hx
        obtain ⟨by', hwy, hgy⟩ := walkNode_concat_some hy
        obtain ⟨hb, hk⟩ := hWF.branch_inj bx kx by' ky n hgx hgy
        subst hb hk
        have hlt := (hWF.branch_lt bx kx n hgx).1
        have := ihn bx hlt xs' ys' hwx hwy
        rw [List.concat_eq_append, List.concat_eq_append, this]

/-! ## Lemmas: the insert loop -/

theorem mapGetO_mGet {K V : Type} [DecidableEq K] (m : HashTrieMap K V) (a : Nat) (k : K) :
    mapGetO m ⟨a, k⟩ = mGet m a k := rfl

theorem mapGetB_mGet {K V : Type} [DecidableEq K] (m : HashTrieMap K V) (a : Nat) (k : K) :
    mapGetB m ⟨a, k⟩ = mGet m a k := mapGetB_eq m a k

/-- Every insert step into a `Trivial` trie fails and leaves it unchanged. -/
theorem insertLoop_trivial {K V : Type} [DecidableEq K] (w v : V) (e : Pair Nat K) :
    ∀ rest : List K, (HashTrie.Trivial w).insertLoop (some e) v rest = (false, .Trivial w) := by
  intro rest
  cases rest with
  | nil => rfl
  | cons k rest' => rfl

/-- Writing a non-branch node over an edge that did not hold a branch
preserves well-formedness (used for the final `set_value` step). -/
theorem WFMap_insert_nonbranch {K V : Type} [DecidableEq K] {m : HashTrieMap K V}
    {nid a : Nat} {k : K} (hWF : WFMap m nid) (ha : a < nid)
    (node : HashTrieNode V) (hnode : ∀ j, node ≠ .Branch j) :
    WFMap (mapInsert m ⟨a, k⟩ node) nid := by
  constructor
  · exact hWF.one_le
  · intro a' k' n h
    rw [mGet_insert] at h
    by_cases hc : a = a' ∧ k = k'
    · omega
    · rw [if_neg hc] at h
      exact hWF.orig_lt a' k' n h
  · intro a' k' j h
    rw [mGet_insert] at h
    by_cases hc : a = a' ∧ k = k'
    · rw [if_pos hc] at h
      simp only [Option.some.injEq] at h
      exact absurd h (hnode j)
    · rw [if_neg hc] at h
      exact hWF.branch_lt a' k' j h
  · intro a' k' a'' k'' j h h'
    rw [mGet_insert] at h h'
    by_cases hc : a = a' ∧ k = k'
    · rw [if_pos hc] at h
      simp only [Option.some.injEq] at h
      exact absurd h (hnode j)
    · rw [if_neg hc] at h
      by_cases hc' : a = a'' ∧ k = k''
      · rw [if_pos hc'] at h'
        simp only [Option.some.injEq] at h'
        exact absurd h' (hnode j)
      · rw [if_neg hc'] at h'
        exact hWF.branch_inj a' k' a'' k'' j h h'

/-- Writing a fresh branch (target `next_id`) over an edge that did not
hold a branch preserves well-formedness at `next_id + 1`. -/
theorem WFMap_insert_fresh_branch {K V : Type} [DecidableEq K] {m : HashTrieMap K V}
    {nid a : Nat} {k : K} (hWF : WFMap m nid) (ha : a < nid) :
    WFMap (mapInsert m ⟨a, k⟩ (.Branch nid : HashTrieNode V)) (nid + 1) := by
  constructor
  · have := hWF.one_le; omega
  · intro a' k' n h
    rw [mGet_insert] at h
    by_cases hc : a = a' ∧ k = k'
    · omega
    · rw [if_neg hc] at h
      have := hWF.orig_lt a' k' n h; omega
  · intro a' k' j h
    rw [mGet_insert] at h
    by_cases hc : a = a' ∧ k = k'
    · rw [if_pos hc] at h
      simp only [Option.some.injEq, HashTrieNode.Branch.injEq] at h
      omega
    · rw [if_neg hc] at h
      have := hWF.branch_lt a' k' j h; omega
  · intro a' k' a'' k'' j h h'
    rw [mGet_insert] at h h'
    by_cases hc : a = a' ∧ k = k'
    · rw [if_pos hc] at h
      simp only [Option.some.injEq, HashTrieNode.Branch.injEq] at h
      by_cases hc' : a = a'' ∧ k = k''
      · exact ⟨hc.1.symm.trans hc'.1, hc.2.symm.trans hc'.2⟩
      · rw [if_neg hc'] at h'
        subst h
        have := (hWF.branch_lt a'' k'' nid h').2
        omega
    · rw [if_neg hc] at h
      by_cases hc' : a = a'' ∧ k = k''
      · rw [if_pos hc'] at h'
        simp only [Option.some.injEq, HashTrieNode.Branch.injEq] at h'
        subst h'
        have := (hWF.branch_lt a' k' nid h).2
        omega
      · rw [if_neg hc'] at h'
        exact hWF.branch_inj a' k' a'' k'' j h h'

/-- The insert loop started at an edge of a well-formed `Standard` trie
returns a well-formed `Standard` trie. -/
theorem insertLoop_WF {K V : Type} [DecidableEq K] (v : V) :
    ∀ (rest : List K) (m : HashTrieMap K V) (nid a : Nat) (k : K),
      WFMap m nid → a < nid →
      ∃ b m' nid', (HashTrie.Standard m nid).insertLoop (some ⟨a, k⟩) v rest =
        (b, .Standard m' nid') ∧ WFMap m' nid' := by
  intro rest
  induction rest with
  | nil =>
    intro m nid a k hWF ha
    rw [HashTrie.insertLoop]
    dsimp only [HashTrie.setValue]
    rw [mapGetO_mGet]
    cases hget : mGet m a k with
    | none =>
      exact ⟨true, _, nid, rfl,
        WFMap_insert_nonbranch hWF ha _ (by simp)⟩
    | some node =>
      cases node with
      | Leaf u =>
        exact ⟨true, _, nid, rfl,
          WFMap_insert_nonbranch hWF ha _ (by simp)⟩
      | Branch j => exact ⟨false, m, nid, rfl, hWF⟩
  | cons k2 rest' ih =>
    intro m nid a k hWF ha
    rw [HashTrie.insertLoop]
    dsimp only [HashTrie.descendOrAdd]
    rw [mapGetB_mGet]
    cases hget : mGet m a k with
    | none =>
      dsimp only
      exact ih (mapInsert m ⟨a, k⟩ (.Branch nid)) (nid + 1) nid k2
        (WFMap_insert_fresh_branch hWF ha) (by omega)
    | some node =>
      cases node with
      | Leaf u =>
        dsimp only
        exact ih (mapInsert m ⟨a, k⟩ (.Branch nid)) (nid + 1) nid k2
          (WFMap_insert_fresh_branch hWF ha) (by omega)
      | Branch j =>
        dsimp only
        exact ih m nid j k2 hWF (hWF.branch_lt a k j hget).2

/-- `insert` preserves trie well-formedness. -/
theorem insert_WF {K V : Type} [DecidableEq K] (t : HashTrie K V) (p : List K) (v : V)
    (h : WFT t) : WFT (t.insert p v).2 := by
  cases t with
  | Trivial w =>
    cases p with
    | nil => exact trivial
    | cons k rest =>
      rw [HashTrie.insert]
      rw [HashTrie.insertLoop]
      dsimp only [HashTrie.descendOrAdd]
      rw [insertLoop_trivial]
      exact trivial
  | Standard m nid =>
    cases p with
    | nil =>
      rw [HashTrie.insert, HashTrie.insertLoop]
      dsimp only [HashTrie.setValue]
      by_cases hemp : m.isEmpty
      · rw [if_pos hemp]; exact trivial
      · rw [if_neg hemp]; exact h
    | cons k rest =>
      rw [HashTrie.insert, HashTrie.insertLoop]
      dsimp only [HashTrie.descendOrAdd]
      obtain ⟨b, m', nid', hloop, hWF'⟩ :=
        insertLoop_WF v rest m nid 0 k h (lt_of_lt_of_le Nat.zero_lt_one h.one_le)
      rw [hloop]
      exact hWF'

/-- Every trie built by a sequence of inserts is well-formed. -/
theorem buildTrie_WF {K V : Type} [DecidableEq K] (ops : List (List K × V)) :
    WFT (buildTrie ops) := by
  have hnew : WFT (HashTrie.new : HashTrie K V) := by
    show WFMap ([] : HashTrieMap K V) 1
    constructor
    · exact Nat.le_refl 1
    · intro a k n h
      simp [mGet, mapGetO] at h
    · intro a k j h
      simp [mGet, mapGetO] at h
    · intro a k a' k' j h h'
      simp [mGet, mapGetO] at h
  suffices h : ∀ (t : HashTrie K V), WFT t →
      WFT (ops.foldl (fun t op => (t.insert op.1 op.2).2) t) by
    exact h HashTrie.new hnew
  induction ops with
  | nil => intro t ht; exact ht
  | cons op ops' ih =>
    intro t ht
    exact ih _ (insert_WF t op.1 op.2 ht)

/-- The insert loop entering entirely fresh territory (every stored origin
is below the current edge's origin) succeeds, builds a chain ending in the
new leaf, and does not change any binding with origin below `C ≤ a`. -/
theorem insertLoop_fresh {K V : Type} [DecidableEq K] (v : V) :
    ∀ (rest : List K) (m : HashTrieMap K V) (nid a : Nat) (k : K) (C : Nat),
      (∀ a' k' n, mGet m a' k' = some n → a' < a) → C ≤ a → a < nid →
      ∃ m' nid' e',
        (HashTrie.Standard m nid).insertLoop (some ⟨a, k⟩) v rest = (true, .Standard m' nid') ∧
        (∀ b kk, b < C → mGet m' b kk = mGet m b kk) ∧
        walkE m' (a, k) rest = some e' ∧
        mGet m' e'.1 e'.2 = some (.Leaf v) := by
  intro rest
  induction rest with
  | nil =>
    intro m nid a k C horig hC han
    have hget : mGet m a k = none := by
      cases hget : mGet m a k with
      | none => rfl
      | some n => exact absurd (horig a k n hget) (lt_irrefl a)
    refine ⟨mapInsert m ⟨a, k⟩ (.Leaf v), nid, (a, k), ?_, ?_, rfl, ?_⟩
    · rw [HashTrie.insertLoop]
      dsimp only [HashTrie.setValue]
      rw [mapGetO_mGet, hget]
    · intro b kk hb
      rw [mGet_insert, if_neg (by omega : ¬(a = b ∧ k = kk))]
    · rw [mGet_insert, if_pos ⟨rfl, rfl⟩]
  | cons k2 rest' ih =>
    intro m nid a k C horig hC han
    have hget : mGet m a k = none := by
      cases hget : mGet m a k with
      | none => rfl
      | some n => exact absurd (horig a k n hget) (lt_irrefl a)
    have horig₁ : ∀ a' k' n, mGet (mapInsert m ⟨a, k⟩ (.Branch nid)) a' k' = some n → a' < nid := by
      intro a' k' n h
      rw [mGet_insert] at h
      by_cases hc : a = a' ∧ k = k'
      · omega
      · rw [if_neg hc] at h
        exact lt_trans (horig a' k' n h) han
    obtain ⟨m', nid', e', hloop, hframe, hwalk, hleaf⟩ :=
      ih (mapInsert m ⟨a, k⟩ (.Branch nid)) (nid + 1) nid k2 (a + 1) horig₁
        (by omega) (by omega)
    refine ⟨m', nid', e', ?_, ?_, ?_, hleaf⟩
    · rw [HashTrie.insertLoop]
      dsimp only [HashTrie.descendOrAdd]
      rw [mapGetB_mGet, hget]
      dsimp only
      exact hloop
    · intro b kk hb
      rw [hframe b kk (by omega), mGet_insert, if_neg (by omega : ¬(a = b ∧ k = kk))]
    · rw [walkE]
      have hbranch : mGet m' a k = some (.Branch nid) := by
        rw [hframe a k (by omega), mGet_insert, if_pos ⟨rfl, rfl⟩]
      rw [hbranch]
      exact hwalk

/-- The insert loop along an existing branch chain ending in a leaf
overwrites exactly that leaf and succeeds. -/
theorem insertLoop_overwrite {K V : Type} [DecidableEq K] (w : V) :
    ∀ (rest : List K) (m : HashTrieMap K V) (nid a : Nat) (k : K) (e' : Nat × K) (u : V),
      walkE m (a, k) rest = some e' → mGet m e'.1 e'.2 = some (.Leaf u) →
      (HashTrie.Standard m nid).insertLoop (some ⟨a, k⟩) w rest =
        (true, .Standard (mapInsert m ⟨e'.1, e'.2⟩ (.Leaf w)) nid) := by
  intro rest
  induction rest with
  | nil =>
    intro m nid a k e' u hwalk hleaf
    rw [walkE] at hwalk
    simp only [Option.some.injEq] at hwalk
    subst hwalk
    dsimp only at hleaf
    rw [HashTrie.insertLoop]
    dsimp only [HashTrie.setValue]
    rw [mapGetO_mGet, hleaf]
  | cons k2 rest' ih =>
    intro m nid a k e' u hwalk hleaf
    rw [walkE] at hwalk
    cases hget : mGet m a k with
    | none => rw [hget] at hwalk; exact absurd hwalk (by simp)
    | some node =>
      cases node with
      | Leaf x => rw [hget] at hwalk; exact absurd hwalk (by simp)
      | Branch j =>
        rw [hget] at hwalk
        rw [HashTrie.insertLoop]
        dsimp only [HashTrie.descendOrAdd]
        rw [mapGetB_mGet, hget]
        dsimp only
        exact ih m nid j k2 e' u hwalk hleaf

/-! ## Lemmas: initial segments -/

theorem isStartOf_append {K : Type} [DecidableEq K] (p r : List K) :
    isStartOf p (p ++ r) = true := by
  induction p with
  | nil => rfl
  | cons a xs ih => simp [isStartOf, ih]

theorem isStartOf_self {K : Type} [DecidableEq K] (p : List K) :
    isStartOf p p = true := by
  have := isStartOf_append p []
  simpa using this

/-! ## The frame lemma for `insert` -/

/-- Frame property of the insert loop: walking `pk :: pr` from node `a`
(reached from the root by `rp`) neither disturbs the walk of an unrelated
stored path `q1 :: qr` nor the leaf it ends in. -/
theorem insertLoop_frame {K V : Type} [DecidableEq K] (v : V) :
    ∀ (pr : List K) (m : HashTrieMap K V) (nid a : Nat) (pk : K) (rp : List K)
      (q1 : K) (qr : List K) (fe : Nat × K) (w : V),
      WFMap m nid → a < nid →
      walkNode m 0 rp = some a →
      walkE m (0, q1) qr = some fe →
      mGet m fe.1 fe.2 = some (.Leaf w) →
      isStartOf (rp ++ pk :: pr) (q1 :: qr) = false →
      isStartOf (q1 :: qr) (rp ++ pk :: pr) = false →
      ∃ b m' nid',
        (HashTrie.Standard m nid).insertLoop (some ⟨a, pk⟩) v pr = (b, .Standard m' nid') ∧
        walkE m' (0, q1) qr = some fe ∧
        mGet m' fe.1 fe.2 = some (.Leaf w) := by
  intro pr
  induction pr with
  | nil =>
    intro m nid a pk rp q1 qr fe w hWF ha hreach hqwalk hqleaf hps hsp
    obtain ⟨fn, fk⟩ := fe
    dsimp only at hqleaf
    rw [HashTrie.insertLoop]
    dsimp only [HashTrie.setValue]
    rw [mapGetO_mGet]
    cases hget : mGet m a pk with
    | some node =>
      cases node with
      | Branch j => exact ⟨false, m, nid, rfl, hqwalk, hqleaf⟩
      | Leaf u =>
        have hne : (fn, fk) ≠ (a, pk) := by
          intro hfe
          rw [hfe] at hqwalk
          obtain ⟨init, hinit, hwq⟩ := walkE_decomp m qr 0 q1 a pk hqwalk
          have hini : init = rp := walkNode_inj hWF a init rp hwq hreach
          subst hini
          rw [hinit, isStartOf_self] at hsp
          simp at hsp
        have hkne : ¬(a = fn ∧ pk = fk) := by
          rintro ⟨rfl, rfl⟩
          exact hne rfl
        refine ⟨true, mapInsert m ⟨a, pk⟩ (.Leaf v), nid, rfl, ?_, ?_⟩
        · refine walkE_mono ?_ qr 0 q1 (fn, fk) hqwalk
          intro x y j hbr
          rw [mGet_insert]
          have hxy : ¬(a = x ∧ pk = y) := by
            rintro ⟨rfl, rfl⟩
            rw [hget] at hbr
            simp at hbr
          rw [if_neg hxy]
          exact hbr
        · rw [mGet_insert, if_neg hkne]
          exact hqleaf
    | none =>
      have hkne : ¬(a = fn ∧ pk = fk) := by
        rintro ⟨rfl, rfl⟩
        rw [hget] at hqleaf
        simp at hqleaf
      refine ⟨true, mapInsert m ⟨a, pk⟩ (.Leaf v), nid, rfl, ?_, ?_⟩
      · refine walkE_mono ?_ qr 0 q1 (fn, fk) hqwalk
        intro x y j hbr
        rw [mGet_insert]
        have hxy : ¬(a = x ∧ pk = y) := by
          rintro ⟨rfl, rfl⟩
          rw [hget] at hbr
          simp at hbr
        rw [if_neg hxy]
        exact hbr
      · rw [mGet_insert, if_neg hkne]
        exact hqleaf
  | cons k2 pr' ih =>
    intro m nid a pk rp q1 qr fe w hWF ha hreach hqwalk hqleaf hps hsp
    rw [HashTrie.insertLoop]
    dsimp only [HashTrie.descendOrAdd]
    rw [mapGetB_mGet]
    have hrw : (rp ++ [pk]) ++ k2 :: pr' = rp ++ pk :: k2 :: pr' := by simp
    cases hget : mGet m a pk with
    | some node =>
      cases node with
      | Branch j =>
        dsimp only
        have hreach' : walkNode m 0 (rp ++ [pk]) = some j := by
          rw [walkNode_append, hreach]
          dsimp only
          rw [walkNode, hget]
          rfl
        exact ih m nid j k2 (rp ++ [pk]) q1 qr fe w hWF
          (hWF.branch_lt a pk j hget).2 hreach' hqwalk hqleaf
          (by rw [hrw]; exact hps) (by rw [hrw]; exact hsp)
      | Leaf u =>
        dsimp only
        obtain ⟨fn, fk⟩ := fe
        dsimp only at hqleaf
        have hne : (fn, fk) ≠ (a, pk) := by
          intro hfe
          rw [hfe] at hqwalk
          obtain ⟨init, hinit, hwq⟩ := walkE_decomp m qr 0 q1 a pk hqwalk
          have hini : init = rp := walkNode_inj hWF a init rp hwq hreach
          subst hini
          rw [hinit] at hsp
          rw [← hrw, isStartOf_append] at hsp
          simp at hsp
        have hkne : ¬(a = fn ∧ pk = fk) := by
          rintro ⟨rfl, rfl⟩
          exact hne rfl
        have horig₁ : ∀ x y n,
            mGet (mapInsert m ⟨a, pk⟩ (.Branch nid)) x y = some n → x < nid := by
          intro x y n h
          rw [mGet_insert] at h
          by_cases hc : a = x ∧ pk = y
          · omega
          · rw [if_neg hc] at h
            exact hWF.orig_lt x y n h
        obtain ⟨m', nid', e', hloop, hframe, hwp, hlp⟩ :=
          insertLoop_fresh v pr' (mapInsert m ⟨a, pk⟩ (.Branch nid)) (nid + 1)
            nid k2 nid horig₁ (Nat.le_refl nid) (by omega)
        have hag : ∀ x y j, x < nid → mGet m x y = some (.Branch j) →
            mGet m' x y = some (.Branch j) := by
          intro x y j hx hbr
          have hxy : ¬(a = x ∧ pk = y) := by
            rintro ⟨rfl, rfl⟩
            rw [hget] at hbr
            simp at hbr
          rw [hframe x y hx, mGet_insert, if_neg hxy]
          exact hbr
        obtain ⟨hwalk', hfn⟩ := walkE_low hWF hag qr 0 q1 (fn, fk)
          (lt_of_lt_of_le Nat.zero_lt_one hWF.one_le) hqwalk
        refine ⟨true, m', nid', hloop, hwalk', ?_⟩
        dsimp only at hfn ⊢
        rw [hframe fn fk hfn, mGet_insert, if_neg hkne]
        exact hqleaf
    | none =>
      dsimp only
      obtain ⟨fn, fk⟩ := fe
      dsimp only at hqleaf
      have hkne : ¬(a = fn ∧ pk = fk) := by
        rintro ⟨rfl, rfl⟩
        rw [hget] at hqleaf
        simp at hqleaf
      have horig₁ : ∀ x y n,
          mGet (mapInsert m ⟨a, pk⟩ (.Branch nid)) x y = some n → x < nid := by
        intro x y n h
        rw [mGet_insert] at h
        by_cases hc : a = x ∧ pk = y
        · omega
        · rw [if_neg hc] at h
          exact hWF.orig_lt x y n h
      obtain ⟨m', nid', e', hloop, hframe, hwp, hlp⟩ :=
        insertLoop_fresh v pr' (mapInsert m ⟨a, pk⟩ (.Branch nid)) (nid + 1)
          nid k2 nid horig₁ (Nat.le_refl nid) (by omega)
      have hag : ∀ x y j, x < nid → mGet m x y = some (.Branch j) →
          mGet m' x y = some (.Branch j) := by
        intro x y j hx hbr
        have hxy : ¬(a = x ∧ pk = y) := by
          rintro ⟨rfl, rfl⟩
          rw [hget] at hbr
          simp at hbr
        rw [hframe x y hx, mGet_insert, if_neg hxy]
        exact hbr
      obtain ⟨hwalk', hfn⟩ := walkE_low hWF hag qr 0 q1 (fn, fk)
        (lt_of_lt_of_le Nat.zero_lt_one hWF.one_le) hqwalk
      refine ⟨true, m', nid', hloop, hwalk', ?_⟩
      dsimp only at hfn ⊢
      rw [hframe fn fk hfn, mGet_insert, if_neg hkne]
      exact hqleaf

/-! ## Claim theorems: the hash trie -/

/-- C2: the prefix-free invariant is not enforced in the extension
direction. After inserting path `[0]` with value 10 into an empty trie,
inserting `[0, 1]` *succeeds* (`descend_or_add` silently overwrites the
leaf at `[0]` with a fresh branch) and the value stored at `[0]` is
destroyed — where the claim (and the `TrieViewMut` documentation) requires
the second insert to fail and `[0]` to remain retrievable. The opposite
direction does hold: after inserting `[0, 1]`, inserting `[0]` fails. -/
theorem insert_extension_clobbers_stored_value :
    ((HashTrie.new : HashTrie Nat Nat).insert [0] 10).2.get [0] = some 10 ∧
    (((HashTrie.new : HashTrie Nat Nat).insert [0] 10).2.insert [0, 1] 20).1 = true ∧
    (((HashTrie.new : HashTrie Nat Nat).insert [0] 10).2.insert [0, 1] 20).2.get [0] = none ∧
    (((HashTrie.new : HashTrie Nat Nat).insert [0, 1] 10).2.insert [0] 20).1 = false := by
  refine ⟨?_, ?_, ?_, ?_⟩ <;> decide

/-- C3, counterexample: inserting value 20 at the already-stored path `[0]`
returns `true` and overwrites (the claim says it returns `false` and the
old value 10 stays). -/
theorem insert_duplicate_returns_true :
    (((HashTrie.new : HashTrie Nat Nat).insert [0] 10).2.insert [0] 20).1 = true ∧
    (((HashTrie.new : HashTrie Nat Nat).insert [0] 10).2.insert [0] 20).2.get [0] = some 20 := by
  refine ⟨?_, ?_⟩ <;> decide

/-- C3, amended: `set_value` deliberately overwrites an existing leaf and
reports success, so for every non-empty path `p`, after `insert(p, v)`
succeeds on an empty trie, `insert(p, w)` returns `true` and `get(p)`
returns `w`. -/
theorem insert_duplicate_overwrite_semantics {K V : Type} [DecidableEq K]
    (p : List K) (v w : V) (hp : p ≠ []) :
    (((HashTrie.new : HashTrie K V).insert p v).2.insert p w).1 = true ∧
    (((HashTrie.new : HashTrie K V).insert p v).2.insert p w).2.get p = some w := by
  cases p with
  | nil => exact absurd rfl hp
  | cons k1 rest =>
    have horig : ∀ a' k' n, mGet ([] : HashTrieMap K V) a' k' = some n → a' < 0 := by
      intro a' k' n h
      simp [mGet, mapGetO] at h
    obtain ⟨m₁, nid₁, e₁, hloop1, hframe1, hwalk1, hleaf1⟩ :=
      insertLoop_fresh v rest ([] : HashTrieMap K V) 1 0 k1 0 horig
        (Nat.le_refl 0) Nat.zero_lt_one
    have h1 : (HashTrie.new : HashTrie K V).insert (k1 :: rest) v =
        (true, .Standard m₁ nid₁) := by
      rw [HashTrie.insert, HashTrie.insertLoop]
      dsimp only [HashTrie.descendOrAdd]
      exact hloop1
    rw [h1]
    have h2 : (HashTrie.Standard m₁ nid₁).insert (k1 :: rest) w =
        (true, .Standard (mapInsert m₁ ⟨e₁.1, e₁.2⟩ (.Leaf w)) nid₁) := by
      rw [HashTrie.insert, HashTrie.insertLoop]
      dsimp only [HashTrie.descendOrAdd]
      exact insertLoop_overwrite w rest m₁ nid₁ 0 k1 e₁ v hwalk1 hleaf1
    rw [h2]
    refine ⟨rfl, ?_⟩
    refine (get_cons_some_iff _ nid₁ k1 rest w).2 ⟨e₁, ?_, ?_⟩
    · refine walkE_mono ?_ rest 0 k1 e₁ hwalk1
      intro x y j hbr
      rw [mGet_insert]
      have hxy : ¬(e₁.1 = x ∧ e₁.2 = y) := by
        rintro ⟨h1', h2'⟩
        rw [← h1', ← h2', hleaf1] at hbr
        simp at hbr
      rw [if_neg hxy]
      exact hbr
    · rw [mGet_insert, if_pos ⟨rfl, rfl⟩]

/-- Witness for C3's amended theorem at `p = [0]`, `v = 10`, `w = 20`. -/
theorem insert_duplicate_overwrite_semantics_witness :
    ([0] : List Nat) ≠ [] ∧
    ((((HashTrie.new : HashTrie Nat Nat).insert [0] 10).2.insert [0] 20).1 = true ∧
      (((HashTrie.new : HashTrie Nat Nat).insert [0] 10).2.insert [0] 20).2.get [0] =
        some 20) :=
  ⟨by decide, insert_duplicate_overwrite_semantics [0] 10 20 (by decide)⟩

/-- C6: inserting at the empty path succeeds on the empty trie (the trie
becomes `Trivial 5`, a leaf at the root), but `get` of the empty path then
returns nothing, because `get_view` returns `None` whenever the path
iterator yields no key — where the claim says `get` returns the value for
every successfully inserted path, the empty path included. -/
theorem get_empty_path_returns_none :
    ((HashTrie.new : HashTrie Nat Nat).insert [] 5).1 = true ∧
    ((HashTrie.new : HashTrie Nat Nat).insert [] 5).2 = HashTrie.Trivial 5 ∧
    ((HashTrie.new : HashTrie Nat Nat).insert [] 5).2.get [] = none := by
  refine ⟨?_, ?_, ?_⟩ <;> decide

/-- C7: a value at the empty path (the `Trivial` form) never coexists with
any other stored path: inserting the empty path succeeds exactly when the
trie is `Standard` with an empty edge map; an empty edge map stores no
path at all; and every insert into a `Trivial` trie fails and leaves it
unchanged. -/
theorem trivial_coexists_with_nothing {K V : Type} [DecidableEq K]
    (t : HashTrie K V) (v w : V) (p : List K) :
    ((t.insert [] v).1 = true ↔ ∃ nid, t = HashTrie.Standard [] nid) ∧
    (HashTrie.Trivial w).insert p v = (false, .Trivial w) ∧
    (∀ (nid : Nat) (q : List K),
      (HashTrie.Standard ([] : HashTrieMap K V) nid).get q = none) := by
  refine ⟨?_, ?_, ?_⟩
  · cases t with
    | Trivial u =>
      constructor
      · intro h
        simp [HashTrie.insert, HashTrie.insertLoop, HashTrie.setValue] at h
      · rintro ⟨nid, h⟩
        cases h
    | Standard m nid =>
      rw [HashTrie.insert, HashTrie.insertLoop]
      dsimp only [HashTrie.setValue]
      by_cases hemp : m.isEmpty
      · rw [if_pos hemp]
        constructor
        · intro _
          exact ⟨nid, by rw [List.isEmpty_iff.1 hemp]⟩
        · intro _
          rfl
      · rw [if_neg hemp]
        constructor
        · intro h
          simp at h
        · rintro ⟨nid', h⟩
          injection h with h1 h2
          exact (hemp (by rw [h1]; rfl)).elim
  · cases p with
    | nil => rfl
    | cons k rest =>
      rw [HashTrie.insert, HashTrie.insertLoop]
      dsimp only [HashTrie.descendOrAdd]
      exact insertLoop_trivial w v ⟨0, k⟩ rest
  · intro nid' q
    cases q with
    | nil => rfl
    | cons k rest =>
      cases rest with
      | nil => rfl
      | cons k2 rest' => rfl

/-- C10: inserting a path `p` leaves the stored value of every unrelated
path `q` intact, on every trie built from `HashTrie::new()` by a sequence
of inserts: if `get q = some w` and neither of `p`, `q` is an initial
segment of the other, then after `insert p v` the lookup `get q` still
returns `w`. -/
theorem insert_frames_unrelated_paths {K V : Type} [DecidableEq K]
    (ops : List (List K × V)) (p q : List K) (v w : V)
    (hget : (buildTrie ops).get q = some w)
    (hqp : isStartOf q p = false)
    (hpq : isStartOf p q = false) :
    ((buildTrie ops).insert p v).2.get q = some w := by
  have hWF := buildTrie_WF ops
  cases ht : buildTrie ops with
  | Trivial u =>
    rw [ht, get_trivial] at hget
    simp at hget
  | Standard m nid =>
    rw [ht] at hget hWF
    have hWFm : WFMap m nid := hWF
    cases q with
    | nil =>
      rw [get_nil] at hget
      simp at hget
    | cons q1 qr =>
      obtain ⟨fe, hqwalk, hqleaf⟩ := (get_cons_some_iff m nid q1 qr w).1 hget
      cases p with
      | nil =>
        rw [isStartOf] at hpq
        simp at hpq
      | cons p1 pr =>
        rw [HashTrie.insert, HashTrie.insertLoop]
        dsimp only [HashTrie.descendOrAdd]
        obtain ⟨b, m', nid', hloop, hw', hl'⟩ :=
          insertLoop_frame v pr m nid 0 p1 [] q1 qr fe w hWFm
            (lt_of_lt_of_le Nat.zero_lt_one hWFm.one_le)
            rfl hqwalk hqleaf (by simpa using hpq) (by simpa using hqp)
        rw [hloop]
        exact (get_cons_some_iff m' nid' q1 qr w).2 ⟨fe, hw', hl'⟩

/-- Witness for C10's theorem: a trie holding `[0] ↦ 1` and `[1,2] ↦ 2`;
inserting at `[0,3]` (which clobbers the leaf at `[0]`) leaves the
unrelated stored path `[1,2]` intact. -/
theorem insert_frames_unrelated_paths_witness :
    (buildTrie [([0], 1), ([1, 2], 2)] : HashTrie Nat Nat).get [1, 2] = some 2 ∧
    isStartOf [1, 2] [0, 3] = false ∧
    isStartOf [0, 3] [1, 2] = false ∧
    ((buildTrie [([0], 1), ([1, 2], 2)] : HashTrie Nat Nat).insert [0, 3] 9).2.get [1, 2] =
      some 2 :=
  ⟨by decide, by decide, by decide,
    insert_frames_unrelated_paths [([0], 1), ([1, 2], 2)] [0, 3] [1, 2] 9 2
      (by decide) (by decide) (by decide)⟩

end Slang
